import Mathlib

/-!
Verification of the Markdown table-of-contents generator (`toc.py`) against its
natural-language specification.

The program is a single pure function `generate_table_of_contents` over a
string.  We embed it shallowly: strings are `List Char`, the regular-expression
operations of the `re` module are translated, for the three concrete patterns
the program uses, into explicit recursive scanners whose behaviour matches the
Python regex engine on those patterns (greedy runs, `re.MULTILINE` anchors
`^`/`$` that bind to `'\n'` only, `.` not matching `'\n'`).

Character classes (`\s`, `\w`, `str.lower`, `str.splitlines` boundaries) are
modelled exactly for the code points listed in the Python documentation; for
`\w` and `lower` the model covers the ASCII range (Python additionally treats
non-ASCII Unicode letters and digits as word characters and has Unicode case
mappings, which are outside the scope of this embedding; no claim below
depends on non-ASCII letters).
-/

namespace Toc

/-- Python's `\s` character class for `str` patterns: space, `\t`, `\n`, `\v`,
`\f`, `\r`, the separators `\x1c`–`\x1f`, `\x85`, `\xa0`, and the Unicode
space code points. -/
def pyIsSpace (c : Char) : Bool :=
  let n := c.toNat
  (n == 32) || (decide (9 ≤ n) && decide (n ≤ 13)) ||
  (decide (28 ≤ n) && decide (n ≤ 31)) || (n == 0x85) || (n == 0xa0) ||
  (n == 0x1680) || (decide (0x2000 ≤ n) && decide (n ≤ 0x200a)) ||
  (n == 0x2028) || (n == 0x2029) || (n == 0x202f) || (n == 0x205f) ||
  (n == 0x3000)

/-- Python's `\w` character class, modelled on the ASCII range:
letters, digits and the underscore. -/
def pyIsWord (c : Char) : Bool :=
  c.isAlphanum || c == '_'

/-- The line boundaries recognised by `str.splitlines` in Python: `\\n`,
`\\v`, `\\f`, `\\r`, `\\x1c`, `\\x1d`, `\\x1e`, `\\x85`, U+2028 and U+2029
(a `\\r\\n` pair counts as a single boundary). -/
def isLineBreak (c : Char) : Bool :=
  let n := c.toNat
  (decide (10 ≤ n) && decide (n ≤ 13)) ||
  (decide (28 ≤ n) && decide (n ≤ 30)) ||
  (n == 0x85) || (n == 0x2028) || (n == 0x2029)

/-- `str.lower`, modelled on the ASCII range: `'A'`–`'Z'` map to
`'a'`–`'z'`, every other character is fixed. -/
def pyToLower (c : Char) : Char :=
  if 65 ≤ c.toNat ∧ c.toNat ≤ 90 then Char.ofNat (c.toNat + 32) else c

/-- `str.splitlines`, first stage: split on every line boundary, keeping the
(possibly empty) final segment after the last boundary.  A `'\r'` immediately
followed by `'\n'` is one boundary. -/
def splitRaw : List Char → List (List Char)
  | [] => [[]]
  | '\r' :: '\n' :: r => [] :: splitRaw r
  | '\r' :: r => [] :: splitRaw r
  | c :: r =>
    if isLineBreak c then
      [] :: splitRaw r
    else
      match splitRaw r with
      | [] => [[c]]
      | l :: ls => (c :: l) :: ls

/-- `str.splitlines`: as `splitRaw`, except that the segment after the final
boundary is kept only when it is non-empty (so `"a\n".splitlines() = ["a"]`
and `"".splitlines() = []`). -/
def pySplitlines (l : List Char) : List (List Char) :=
  if (splitRaw l).getLast? = some [] then (splitRaw l).dropLast else splitRaw l

/-- Drop characters up to and including the next `'\n'` (the next position at
which `re.MULTILINE`'s `^` can match). -/
def dropToNextLine : List Char → List Char
  | [] => []
  | c :: r => if c == '\n' then r else dropToNextLine r

/-- `re.findall` with the raw pattern `^(#+\s+(.*))$` under `re.MULTILINE`,
as a fuelled scanner.

At each line start (position `0` or a position directly after a `'\n'`) the
pattern matches iff a maximal non-empty run of `'#'` is followed by at least
one `\s` character.  Since `#+` and `\s+` are greedy, `.` matches everything
but `'\n'`, and `$` (multiline) matches before every `'\n'` and at the end of
the input, a successful match consumes the maximal `'#'` run, then the maximal
`\s` run (which may cross line boundaries when the rest of the `'#'` line is
all whitespace), and captures as group 2 the remaining characters up to the
next `'\n'` or the end of the input; no backtracking can occur.  `re.findall`
resumes scanning at the end of the match, which lies just before a `'\n'` or
at the end of the input, so the next candidate position is the following line
start.  Each returned element is the pair (group 1, group 2) =
(whole match, text after the `'#'` and whitespace runs). -/
def findHeadingsF : Nat → List Char → List (List Char × List Char)
  | 0, _ => []
  | _ + 1, [] => []
  | fuel + 1, c :: r =>
    if c = '#' then
      if (List.takeWhile pyIsSpace (List.dropWhile (fun d => d == '#') (c :: r))).isEmpty = true then
        findHeadingsF fuel (dropToNextLine (c :: r))
      else
        (List.takeWhile (fun d => d == '#') (c :: r) ++
           List.takeWhile pyIsSpace (List.dropWhile (fun d => d == '#') (c :: r)) ++
           List.takeWhile (fun d => d != '\n')
             (List.dropWhile pyIsSpace (List.dropWhile (fun d => d == '#') (c :: r))),
         List.takeWhile (fun d => d != '\n')
           (List.dropWhile pyIsSpace (List.dropWhile (fun d => d == '#') (c :: r)))) ::
        findHeadingsF fuel (dropToNextLine
          (List.dropWhile (fun d => d != '\n')
            (List.dropWhile pyIsSpace (List.dropWhile (fun d => d == '#') (c :: r)))))
    else
      findHeadingsF fuel (dropToNextLine (c :: r))

/-- All matches of `^(#+\s+(.*))$` (multiline) in the document, in order:
`headings = re.findall(...)` of the source.  One unit of fuel is consumed per
emitted match or skipped line, and each such step consumes at least one
character, so `length + 1` fuel always suffices. -/
def findHeadings (md : List Char) : List (List Char × List Char) :=
  findHeadingsF (md.length + 1) md

/-- Python `s * n` for strings: `n` concatenated copies of `s`. -/
def strMul (s : List Char) (n : Nat) : List Char :=
  (List.replicate n s).flatten

/-- `indentation = "  " * (level - 1)`. -/
def indentation (level : Nat) : List Char :=
  strMul "  ".data (level - 1)

/-- `re.sub` replacing the raw pattern `\s+` by a hyphen:
every maximal run of `\s` characters is replaced
with a single `'-'`.  The flag records whether the scanner is inside a
whitespace run whose `'-'` has already been emitted. -/
def collapseGo : Bool → List Char → List Char
  | _, [] => []
  | inRun, c :: r =>
    if pyIsSpace c then
      if inRun then collapseGo true r else '-' :: collapseGo true r
    else
      c :: collapseGo false r

/-- `re.sub` deleting the class `[^\w\s-]` keeps exactly the characters in
`\w`, `\s` or the hyphen. -/
def keepChar (c : Char) : Bool :=
  pyIsWord c || pyIsSpace c || c == '-'

/-- The link slug of a heading text: `re.sub` deleting the class `[^\w\s-]`
from `text.lower()`, followed by `re.sub` replacing runs of `\s+` by a
hyphen. -/
def slug (t : List Char) : List Char :=
  collapseGo false (List.filter keepChar (t.map pyToLower))

/-- The TOC line generated for one regex match `(full, text)`, or `none` when
the match is skipped: the body of the loop over the matches, guarded by
the condition that `level > 1` and the text differs from the literal
`Table of Contents`, appending the indentation, the bracketed display text and
the slug link target, with `level` the count of `'#'` over the whole matched
text (group 1), as in the source.  The trailing `'\\n'` is appended in
`tocString`. -/
def entryLine? (h : List Char × List Char) : Option (List Char) :=
  if 1 < List.count '#' h.1 ∧ h.2 ≠ "Table of Contents".data then
    some (indentation (List.count '#' h.1) ++ "- [".data ++ h.2 ++ "](#".data ++
      slug h.2 ++ ")".data)
  else
    none

/-- The TOC lines emitted by the loop, in document order. -/
def tocEntries (hs : List (List Char × List Char)) : List (List Char) :=
  hs.filterMap entryLine?

/-- The accumulated `toc` string: `"## Table of Contents\n"` followed by each
emitted entry line with its trailing `'\n'`. -/
def tocString (hs : List (List Char × List Char)) : List Char :=
  "## Table of Contents\n".data ++ (List.map (fun e => e ++ ['\n']) (tocEntries hs)).flatten

/-- `generate_table_of_contents`: find the headings, build the TOC string,
split both it and the document into lines, and join
`markdown_content[0:1] + toc + markdown_content[1:]` with `'\n'`. -/
def generate (md : List Char) : List Char :=
  let toc := pySplitlines (tocString (findHeadings md))
  let lines := pySplitlines md
  List.intercalate ['\n'] (lines.take 1 ++ toc ++ lines.drop 1)

/-- The number of leading `'#'` characters of a matched heading line: the
level prescribed by the specification (`level` = count of leading `'#'`
characters). -/
def specLeadingLevel (l : List Char) : Nat :=
  (List.takeWhile (fun d => d == '#') l).length

/-- A list of characters containing no `splitlines` boundary. -/
def breakFree (l : List Char) : Prop :=
  ∀ c ∈ l, isLineBreak c = false

/-- Modelled from the claim wording for the slug (C4), second stage: replace
every maximal run of whitespace with a single hyphen, formulated by skipping
the rest of the run after emitting the hyphen. -/
def specCollapse : List Char → List Char
  | [] => []
  | c :: r =>
    if pyIsSpace c then '-' :: specCollapse (List.dropWhile pyIsSpace r)
    else c :: specCollapse r
  termination_by l => l.length
  decreasing_by
    all_goals simp only [List.length_cons]
    · have h1 : (List.dropWhile pyIsSpace r).length ≤ r.length := by
        induction r with
        | nil => simp
        | cons a r2 ih =>
          rw [List.dropWhile_cons]
          split
          · exact Nat.le_trans ih (by simp)
          · exact Nat.le_refl _
      omega
    · omega

/-- The slug derivation exactly as the claim C4 words it: lowercase the text,
delete every character that is not a letter, digit, whitespace, or hyphen,
then replace every run of whitespace with a single hyphen. -/
def specSlugClaim (t : List Char) : List Char :=
  specCollapse (List.filter
    (fun c => c.isAlpha || c.isDigit || pyIsSpace c || c == '-') (t.map pyToLower))

/-- As `specSlugClaim`, with the underscore added to the kept class (the
correction forced by the `\w` class of the source). -/
def specSlugUnderscore (t : List Char) : List Char :=
  specCollapse (List.filter
    (fun c => c.isAlpha || c.isDigit || c == '_' || pyIsSpace c || c == '-')
    (t.map pyToLower))

/-! ### Lemmas about `splitRaw` and `pySplitlines` -/

theorem splitRaw_cons_cr_nl (r : List Char) :
    splitRaw ('\r' :: '\n' :: r) = [] :: splitRaw r := by
  simp [splitRaw]

theorem splitRaw_cons_not_break (c : Char) (r : List Char) (h : isLineBreak c = false) :
    splitRaw (c :: r) = match splitRaw r with
      | [] => [[c]]
      | l :: ls => (c :: l) :: ls := by
  have h1 : c ≠ '\r' := by
    intro e; subst e; exact absurd h (by decide)
  rw [splitRaw.eq_def]
  split
  · simp_all
  · simp_all
  · simp_all
  · rename_i c2 r2 hne1 hne2 heq
    injection heq with e1 e2
    subst e1; subst e2
    rw [if_neg (by simp [h])]

theorem splitRaw_cons_break (c : Char) (r : List Char) (h : isLineBreak c = true)
    (hcr : c ≠ '\r') : splitRaw (c :: r) = [] :: splitRaw r := by
  rw [splitRaw.eq_def]
  split
  · simp_all
  · simp_all
  · simp_all
  · rename_i c2 r2 hne1 hne2 heq
    injection heq with e1 e2
    subst e1; subst e2
    rw [if_pos h]

theorem splitRaw_ne_nil (l : List Char) : splitRaw l ≠ [] := by
  rw [splitRaw.eq_def]
  split
  · simp
  · simp
  · simp
  · split
    · simp
    · split <;> simp

theorem splitRaw_of_breakFree (l : List Char) (h : breakFree l) : splitRaw l = [l] := by
  induction l with
  | nil => rfl
  | cons c r ih =>
    have hc : isLineBreak c = false := h c (by simp)
    rw [splitRaw_cons_not_break c r hc, ih (fun d hd => h d (by simp [hd]))]

theorem splitRaw_append_newline (l0 r : List Char) (h : breakFree l0) :
    splitRaw (l0 ++ '\n' :: r) = l0 :: splitRaw r := by
  induction l0 with
  | nil =>
    have : splitRaw ('\n' :: r) = [] :: splitRaw r :=
      splitRaw_cons_break '\n' r (by decide) (by decide)
    simpa using this
  | cons c l0 ih =>
    have hc : isLineBreak c = false := h c (by simp)
    have ih2 := ih (fun d hd => h d (by simp [hd]))
    rw [List.cons_append, splitRaw_cons_not_break c _ hc, ih2]

theorem splitRaw_cons_cr (d : Char) (r : List Char) (h : d ≠ '\n') :
    splitRaw ('\r' :: d :: r) = [] :: splitRaw (d :: r) := by
  rw [splitRaw.eq_def]
  split
  · simp_all
  · rename_i r2 heq
    injection heq with e1 e2
    injection e2 with e3 e4
    exact absurd e3 h
  · rename_i r2 hne heq
    injection heq with e1 e2
    rw [e2]
  · rename_i c2 r2 hne1 hne2 heq
    injection heq with e1 e2
    exact absurd e1.symm hne2

/-- Auxiliary induction (on a length bound) showing that the segments
produced by `splitRaw` contain no line boundary. -/
theorem breakFree_of_mem_splitRaw_aux :
    ∀ (n : Nat) (l x : List Char), l.length ≤ n → x ∈ splitRaw l → breakFree x := by
  intro n
  induction n with
  | zero =>
    intro l x hl hx
    have : l = [] := List.eq_nil_of_length_eq_zero (Nat.le_zero.mp hl)
    subst this
    simp [splitRaw] at hx
    subst hx
    intro c hc
    simp at hc
  | succ n ih =>
    intro l x hl hx
    cases l with
    | nil =>
      simp [splitRaw] at hx
      subst hx
      intro c hc
      simp at hc
    | cons c r =>
      simp only [List.length_cons] at hl
      by_cases hcr : c = '\r'
      · subst hcr
        cases r with
        | nil =>
          have he : splitRaw ['\r'] = [[], []] := rfl
          rw [he] at hx
          have : x = [] := by simpa using hx
          subst this
          intro a ha
          simp at ha
        | cons d r2 =>
          simp only [List.length_cons] at hl
          by_cases hd : d = '\n'
          · subst hd
            rw [splitRaw_cons_cr_nl] at hx
            rcases List.mem_cons.mp hx with h1 | h1
            · subst h1; intro a ha; simp at ha
            · exact ih r2 x (by omega) h1
          · rw [splitRaw_cons_cr d r2 hd] at hx
            rcases List.mem_cons.mp hx with h1 | h1
            · subst h1; intro a ha; simp at ha
            · exact ih (d :: r2) x (by simp; omega) h1
      · by_cases hbr : isLineBreak c = true
        · rw [splitRaw_cons_break c r hbr hcr] at hx
          rcases List.mem_cons.mp hx with h1 | h1
          · subst h1; intro a ha; simp at ha
          · exact ih r x (by omega) h1
        · have hbr2 : isLineBreak c = false := by simpa using hbr
          rw [splitRaw_cons_not_break c r hbr2] at hx
          rcases hsr : splitRaw r with _ | ⟨l1, ls⟩
          · exact absurd hsr (splitRaw_ne_nil r)
          · rw [hsr] at hx
            have hx2 : x ∈ (c :: l1) :: ls := hx
            rcases List.mem_cons.mp hx2 with h1 | h1
            · subst h1
              intro a ha
              rcases List.mem_cons.mp ha with e | e
              · subst e; exact hbr2
              · exact ih r l1 (by omega)
                  (by rw [hsr]; exact List.mem_cons_self _ _) a e
            · exact ih r x (by omega)
                (by rw [hsr]; exact List.mem_cons_of_mem _ h1)

/-- The segments produced by `splitRaw` contain no line boundary. -/
theorem breakFree_of_mem_splitRaw (l x : List Char) (hx : x ∈ splitRaw l) : breakFree x :=
  breakFree_of_mem_splitRaw_aux l.length l x (Nat.le_refl _) hx

/-- The lines produced by `pySplitlines` contain no line boundary. -/
theorem breakFree_of_mem_pySplitlines (l x : List Char) (hx : x ∈ pySplitlines l) :
    breakFree x := by
  unfold pySplitlines at hx
  split at hx
  · exact breakFree_of_mem_splitRaw l x (List.dropLast_subset _ hx)
  · exact breakFree_of_mem_splitRaw l x hx

/-- One step of `splitRaw` on a non-empty list: either the head character is
a boundary and an empty first segment is emitted, or the head character is
prepended to the first segment of the tail split. -/
theorem splitRaw_cons_cases (c : Char) (r : List Char) :
    (∃ r2, splitRaw (c :: r) = [] :: splitRaw r2) ∨
    (isLineBreak c = false ∧
      ∃ l1 ls, splitRaw r = l1 :: ls ∧ splitRaw (c :: r) = (c :: l1) :: ls) := by
  by_cases hcr : c = '\r'
  · subst hcr
    cases r with
    | nil => exact Or.inl ⟨[], rfl⟩
    | cons d r2 =>
      by_cases hd : d = '\n'
      · subst hd
        exact Or.inl ⟨r2, splitRaw_cons_cr_nl r2⟩
      · exact Or.inl ⟨d :: r2, splitRaw_cons_cr d r2 hd⟩
  · by_cases hbr : isLineBreak c = true
    · exact Or.inl ⟨r, splitRaw_cons_break c r hbr hcr⟩
    · have hbr2 : isLineBreak c = false := by simpa using hbr
      rcases hsr : splitRaw r with _ | ⟨l1, ls⟩
      · exact absurd hsr (splitRaw_ne_nil r)
      · refine Or.inr ⟨hbr2, l1, ls, rfl, ?_⟩
        rw [splitRaw_cons_not_break c r hbr2, hsr]

/-- Splitting a non-empty string yields at least one line. -/
theorem pySplitlines_ne_nil (c : Char) (r : List Char) : pySplitlines (c :: r) ≠ [] := by
  unfold pySplitlines
  rcases splitRaw_cons_cases c r with ⟨r2, hsr⟩ | ⟨hbr, l1, ls, hsr1, hsr⟩
  · rw [hsr]
    have h1 : splitRaw r2 ≠ [] := splitRaw_ne_nil r2
    split
    · apply List.ne_nil_of_length_pos
      rw [List.length_dropLast]
      simp only [List.length_cons]
      have : 0 < (splitRaw r2).length := List.length_pos.mpr h1
      omega
    · simp
  · rw [hsr]
    cases ls with
    | nil =>
      split
      · rename_i hlast
        simp at hlast
      · simp
    | cons l2 ls2 =>
      split
      · apply List.ne_nil_of_length_pos
        rw [List.length_dropLast]
        simp only [List.length_cons]
        omega
      · simp

/-- `pySplitlines` of a break-free line followed by a newline and more text:
the first line is recovered exactly. -/
theorem pySplitlines_head (l0 r : List Char) (h : breakFree l0) :
    (pySplitlines (l0 ++ '\n' :: r)).head? = some l0 := by
  unfold pySplitlines
  rw [splitRaw_append_newline l0 r h]
  rcases hsr : splitRaw r with _ | ⟨l1, ls⟩
  · exact absurd hsr (splitRaw_ne_nil r)
  · split
    · rw [List.dropLast_cons_of_ne_nil (by simp)]
      simp
    · simp

theorem intercalate_cons_ne_nil (sep a : List Char) (X : List (List Char)) (h : X ≠ []) :
    List.intercalate sep (a :: X) = a ++ sep ++ List.intercalate sep X := by
  rcases X with _ | ⟨b, Y⟩
  · exact absurd rfl h
  · simp [List.intercalate, List.intersperse]

theorem intercalate_single (sep a : List Char) : List.intercalate sep [a] = a := by
  simp [List.intercalate, List.intersperse]

/-- Joining a list of lines ending in `l` produces a string ending in `l`. -/
theorem intercalate_concat_ends (L : List (List Char)) (l : List Char) :
    ∃ p, List.intercalate ['\n'] (L ++ [l]) = p ++ l := by
  induction L with
  | nil => exact ⟨[], by simpa using intercalate_single ['\n'] l⟩
  | cons a L ih =>
    rcases ih with ⟨p, hp⟩
    refine ⟨a ++ '\n' :: p, ?_⟩
    rw [List.cons_append, intercalate_cons_ne_nil _ _ _ (by simp), hp]
    simp

theorem getLast?_append_right {α : Type} (p l : List α) (h : l ≠ []) :
    (p ++ l).getLast? = l.getLast? := by
  rw [List.getLast?_append]
  rcases hl : l.getLast? with _ | x
  · exact absurd (List.getLast?_isSome.mpr h) (by simp [hl])
  · rfl

theorem getLast?_cons_of_ne_nil {a : List Char} {l : List (List Char)} (h : l ≠ []) :
    (a :: l).getLast? = l.getLast? := by
  rcases l with _ | ⟨b, l⟩
  · exact absurd rfl h
  · exact List.getLast?_cons_cons

/-- Splitting a string that ends in a non-boundary character `c`: appending a
final newline appends exactly one empty raw segment, and the last raw segment
ends in `c`.  Both facts by one induction (on a length bound) over the
prefix. -/
theorem splitRaw_concat_aux (c : Char) (hc : isLineBreak c = false) :
    ∀ (n : Nat) (Y : List Char), Y.length ≤ n →
      splitRaw (Y ++ [c] ++ ['\n']) = splitRaw (Y ++ [c]) ++ [[]] ∧
      ∃ u, (splitRaw (Y ++ [c])).getLast? = some (u ++ [c]) := by
  have hcn : c ≠ '\n' := by
    intro e; subst e; exact absurd hc (by decide)
  intro n
  induction n with
  | zero =>
    intro Y hY
    have : Y = [] := List.eq_nil_of_length_eq_zero (Nat.le_zero.mp hY)
    subst this
    constructor
    · show splitRaw (c :: ['\n']) = splitRaw (c :: []) ++ [[]]
      rw [splitRaw_cons_not_break c ['\n'] hc, splitRaw_cons_not_break c [] hc]
      have h1 : splitRaw ['\n'] = [[], []] :=
        splitRaw_cons_break '\n' [] (by decide) (by decide)
      rw [h1]
      rfl
    · show ∃ u, (splitRaw (c :: [])).getLast? = some (u ++ [c])
      refine ⟨[], ?_⟩
      rw [splitRaw_cons_not_break c [] hc]
      rfl
  | succ n ih =>
    intro Y hY
    cases Y with
    | nil => exact ih [] (Nat.zero_le n)
    | cons d Y =>
      simp only [List.length_cons] at hY
      have hY2 : Y.length ≤ n := by omega
      have step :
          (splitRaw ((d :: Y) ++ [c] ++ ['\n']) = [] :: splitRaw (Y ++ [c] ++ ['\n']) ∧
           splitRaw ((d :: Y) ++ [c]) = [] :: splitRaw (Y ++ [c])) ∨
          (isLineBreak d = false) ∨
          (∃ Y2, Y = '\n' :: Y2 ∧
           splitRaw ((d :: Y) ++ [c] ++ ['\n']) = [] :: splitRaw (Y2 ++ [c] ++ ['\n']) ∧
           splitRaw ((d :: Y) ++ [c]) = [] :: splitRaw (Y2 ++ [c])) := by
        by_cases hdr : d = '\r'
        · subst hdr
          cases Y with
          | nil =>
            exact Or.inl ⟨splitRaw_cons_cr c ['\n'] hcn, splitRaw_cons_cr c [] hcn⟩
          | cons e Y2 =>
            by_cases he : e = '\n'
            · subst he
              exact Or.inr (Or.inr ⟨Y2, rfl, splitRaw_cons_cr_nl _, splitRaw_cons_cr_nl _⟩)
            · exact Or.inl ⟨splitRaw_cons_cr e _ he, splitRaw_cons_cr e _ he⟩
        · by_cases hbd : isLineBreak d = true
          · exact Or.inl ⟨splitRaw_cons_break d _ hbd hdr, splitRaw_cons_break d _ hbd hdr⟩
          · exact Or.inr (Or.inl (by simpa using hbd))
      rcases step with ⟨s1, s2⟩ | hd | ⟨Y2, hYe, s1, s2⟩
      · rcases ih Y hY2 with ⟨ih1, u, ih2⟩
        refine ⟨?_, ?_⟩
        · rw [s1, s2, ih1, List.cons_append]
        · rw [s2]
          exact ⟨u, by rw [getLast?_cons_of_ne_nil (splitRaw_ne_nil _)]; exact ih2⟩
      · rcases ih Y hY2 with ⟨ih1, u, ih2⟩
        rcases hsr : splitRaw (Y ++ [c]) with _ | ⟨l1, ls⟩
        · exact absurd hsr (splitRaw_ne_nil _)
        · have e1 : splitRaw ((d :: Y) ++ [c] ++ ['\n']) = (d :: l1) :: (ls ++ [[]]) := by
            show splitRaw (d :: (Y ++ [c] ++ ['\n'])) = (d :: l1) :: (ls ++ [[]])
            rw [splitRaw_cons_not_break d _ hd, ih1, hsr]
            rfl
          have e2 : splitRaw ((d :: Y) ++ [c]) = (d :: l1) :: ls := by
            show splitRaw (d :: (Y ++ [c])) = (d :: l1) :: ls
            rw [splitRaw_cons_not_break d _ hd, hsr]
          refine ⟨?_, ?_⟩
          · rw [e1, e2, List.cons_append]
          · rw [e2]
            rw [hsr] at ih2
            cases ls with
            | nil =>
              have hu : l1 = u ++ [c] := by simpa using ih2
              exact ⟨d :: u, by simp [hu]⟩
            | cons l2 ls2 =>
              rw [List.getLast?_cons_cons] at ih2 ⊢
              exact ⟨u, ih2⟩
      · subst hYe
        simp only [List.length_cons] at hY2
        rcases ih Y2 (by omega) with ⟨ih1, u, ih2⟩
        refine ⟨?_, ?_⟩
        · rw [s1, s2, ih1, List.cons_append]
        · rw [s2]
          exact ⟨u, by rw [getLast?_cons_of_ne_nil (splitRaw_ne_nil _)]; exact ih2⟩

/-- Every emitted TOC entry line ends with the closing parenthesis. -/
theorem entryLine?_shape (h : List Char × List Char) (p : List Char)
    (he : entryLine? h = some p) : ∃ q, p = q ++ [')'] := by
  unfold entryLine? at he
  split at he
  · injection he with he2
    refine ⟨indentation (List.count '#' h.1) ++ "- [".data ++ h.2 ++ "](#".data ++ slug h.2, ?_⟩
    rw [← he2]
  · exact absurd he (by simp)

/-- The accumulated TOC string is a non-boundary character followed by a final
newline: its body ends in `'s'` (bare header) or `')'` (last entry). -/
theorem tocString_shape (hs : List (List Char × List Char)) :
    ∃ Y c, isLineBreak c = false ∧ tocString hs = (Y ++ [c]) ++ ['\n'] := by
  rcases List.eq_nil_or_concat (tocEntries hs) with hE | ⟨E, e, hE⟩
  · refine ⟨"## Table of Content".data, 's', by decide, ?_⟩
    unfold tocString
    rw [hE]
    decide
  · rw [List.concat_eq_append] at hE
    rcases List.mem_filterMap.mp (by rw [hE]; exact List.mem_append_right E (List.mem_cons_self e []) : e ∈ tocEntries hs) with ⟨a, _, ha⟩
    rcases entryLine?_shape a e ha with ⟨q, hq⟩
    refine ⟨"## Table of Contents\n".data ++ (List.map (fun x => x ++ ['\n']) E).flatten ++ q, ')', by decide, ?_⟩
    unfold tocString
    rw [hE, List.map_append, List.flatten_append, hq]
    simp [List.append_assoc]

/-- The last line of the split TOC block is non-empty and break-free: it ends
in the non-boundary character produced by `tocString_shape`. -/
theorem tocLines_getLast (hs : List (List Char × List Char)) :
    ∃ u c, isLineBreak c = false ∧
      (pySplitlines (tocString hs)).getLast? = some (u ++ [c]) := by
  rcases tocString_shape hs with ⟨Y, c, hc, hts⟩
  rcases splitRaw_concat_aux c hc Y.length Y (Nat.le_refl _) with ⟨h1, u, h2⟩
  refine ⟨u, c, hc, ?_⟩
  rw [hts]
  unfold pySplitlines
  rw [h1, List.getLast?_concat, if_pos rfl, List.dropLast_concat]
  exact h2

/-! ### Fuel lemmas for the heading scanner -/

theorem dropToNextLine_length_le : ∀ l : List Char, (dropToNextLine l).length ≤ l.length := by
  intro l
  induction l with
  | nil => simp [dropToNextLine]
  | cons c r ih =>
    unfold dropToNextLine
    split
    · simp
    · exact Nat.le_trans ih (by simp)

theorem dropToNextLine_cons_le (c : Char) (r : List Char) :
    (dropToNextLine (c :: r)).length ≤ r.length := by
  unfold dropToNextLine
  split
  · exact Nat.le_refl _
  · exact dropToNextLine_length_le r

theorem length_dropWhile_le (p : Char → Bool) : ∀ l : List Char,
    (List.dropWhile p l).length ≤ l.length := by
  intro l
  induction l with
  | nil => simp
  | cons c r ih =>
    rw [List.dropWhile_cons]
    split
    · exact Nat.le_trans ih (by simp)
    · exact Nat.le_refl _

/-- The fuelled scanner does not depend on the exact amount of fuel, as long
as it exceeds the length of the input. -/
theorem findHeadingsF_congr : ∀ (f1 f2 : Nat) (s : List Char),
    s.length < f1 → s.length < f2 → findHeadingsF f1 s = findHeadingsF f2 s := by
  intro f1
  induction f1 with
  | zero =>
    intro f2 s h1 h2
    exact absurd h1 (Nat.not_lt_zero _)
  | succ f ih =>
    intro f2 s h1 h2
    cases s with
    | nil =>
      cases f2 with
      | zero => exact absurd h2 (Nat.not_lt_zero _)
      | succ g => rfl
    | cons c r =>
      cases f2 with
      | zero => exact absurd h2 (Nat.not_lt_zero _)
      | succ g =>
        simp only [List.length_cons] at h1 h2
        have hskip : (dropToNextLine (c :: r)).length < f ∧
            (dropToNextLine (c :: r)).length < g := by
          have := dropToNextLine_cons_le c r
          omega
        show findHeadingsF (f + 1) (c :: r) = findHeadingsF (g + 1) (c :: r)
        rw [findHeadingsF, findHeadingsF]
        by_cases hc : c = '#'
        · rw [if_pos hc, if_pos hc]
          by_cases hw : (List.takeWhile pyIsSpace
              (List.dropWhile (fun d => d == '#') (c :: r))).isEmpty = true
          · rw [if_pos hw, if_pos hw]
            exact ih _ _ hskip.1 hskip.2
          · rw [if_neg hw, if_neg hw]
            have hlen : (dropToNextLine
                (List.dropWhile (fun d => d != '\n')
                  (List.dropWhile pyIsSpace
                    (List.dropWhile (fun d => d == '#') (c :: r))))).length ≤ r.length := by
              have b1 : (List.dropWhile (fun d => d == '#') (c :: r)).length ≤ r.length := by
                rw [List.dropWhile_cons]
                rw [if_pos (by simp [hc])]
                exact length_dropWhile_le _ r
              have b2 := length_dropWhile_le pyIsSpace
                (List.dropWhile (fun d => d == '#') (c :: r))
              have b3 := length_dropWhile_le (fun d => d != '\n')
                (List.dropWhile pyIsSpace (List.dropWhile (fun d => d == '#') (c :: r)))
              have b4 := dropToNextLine_length_le
                (List.dropWhile (fun d => d != '\n')
                  (List.dropWhile pyIsSpace (List.dropWhile (fun d => d == '#') (c :: r))))
              omega
            rw [ih _ _ (by omega) (by omega : (dropToNextLine
                (List.dropWhile (fun d => d != '\n')
                  (List.dropWhile pyIsSpace
                    (List.dropWhile (fun d => d == '#') (c :: r))))).length < g)]
        · rw [if_neg hc, if_neg hc]
          exact ih _ _ hskip.1 hskip.2

/-- Enough fuel computes `findHeadings`. -/
theorem findHeadingsF_eq (fuel : Nat) (s : List Char) (h : s.length < fuel) :
    findHeadingsF fuel s = findHeadings s :=
  findHeadingsF_congr fuel (s.length + 1) s h (Nat.lt_succ_self _)

/-! ### Lemmas about lowercasing and the slug pipeline -/

theorem pyToLower_toNat_of (c : Char) (h1 : 65 ≤ c.toNat) (h2 : c.toNat ≤ 90) :
    (pyToLower c).toNat = c.toNat + 32 := by
  unfold pyToLower
  rw [if_pos ⟨h1, h2⟩]
  have hv : (c.toNat + 32).isValidChar := Or.inl (by omega)
  unfold Char.ofNat
  rw [dif_pos hv]
  rfl

theorem pyToLower_idem (c : Char) : pyToLower (pyToLower c) = pyToLower c := by
  by_cases h : 65 ≤ c.toNat ∧ c.toNat ≤ 90
  · have ht := pyToLower_toNat_of c h.1 h.2
    have hn : ¬(65 ≤ (pyToLower c).toNat ∧ (pyToLower c).toNat ≤ 90) := by omega
    generalize hgen : pyToLower c = d at hn ⊢
    rw [pyToLower.eq_def, if_neg hn]
  · have hd : pyToLower c = c := by rw [pyToLower.eq_def, if_neg h]
    rw [hd]
    exact hd

/-- Characters of the output of the whitespace-collapsing substitution are
either the inserted hyphen or non-whitespace characters of the input. -/
theorem mem_collapseGo : ∀ (b : Bool) (l : List Char) (x : Char), x ∈ collapseGo b l →
    x = '-' ∨ (x ∈ l ∧ pyIsSpace x = false) := by
  intro b l
  induction l generalizing b with
  | nil =>
    intro x hx
    simp [collapseGo] at hx
  | cons c r ih =>
    intro x hx
    unfold collapseGo at hx
    split at hx
    · split at hx
      · rcases ih true x hx with h | h
        · exact Or.inl h
        · exact Or.inr ⟨List.mem_cons_of_mem _ h.1, h.2⟩
      · rcases List.mem_cons.mp hx with h | h
        · exact Or.inl h
        · rcases ih true x h with h2 | h2
          · exact Or.inl h2
          · exact Or.inr ⟨List.mem_cons_of_mem _ h2.1, h2.2⟩
    · rename_i hsp
      rcases List.mem_cons.mp hx with h | h
      · subst h
        exact Or.inr ⟨List.mem_cons_self _ _, by simpa using hsp⟩
      · rcases ih false x h with h2 | h2
        · exact Or.inl h2
        · exact Or.inr ⟨List.mem_cons_of_mem _ h2.1, h2.2⟩

theorem collapseGo_no_space (b : Bool) (l : List Char) (h : ∀ x ∈ l, pyIsSpace x = false) :
    collapseGo b l = l := by
  induction l generalizing b with
  | nil => rfl
  | cons c r ih =>
    unfold collapseGo
    rw [if_neg (by simp [h c (List.mem_cons_self c r)])]
    rw [ih false (fun x hx => h x (List.mem_cons_of_mem _ hx))]

theorem map_pyToLower_eq_self (l : List Char) (h : ∀ x ∈ l, pyToLower x = x) :
    l.map pyToLower = l := by
  induction l with
  | nil => rfl
  | cons c r ih =>
    rw [List.map_cons, h c (List.mem_cons_self c r),
      ih (fun x hx => h x (List.mem_cons_of_mem _ hx))]

/-- Every character of a slug is kept by the deletion class, is not
whitespace, and is fixed by lowercasing. -/
theorem slug_chars (t : List Char) (x : Char) (hx : x ∈ slug t) :
    keepChar x = true ∧ pyIsSpace x = false ∧ pyToLower x = x := by
  unfold slug at hx
  rcases mem_collapseGo false _ x hx with h | ⟨h1, h2⟩
  · subst h
    exact ⟨by decide, by decide, by decide⟩
  · have h3 := (List.mem_filter.mp h1).2
    have h4 := (List.mem_filter.mp h1).1
    rcases List.mem_map.mp h4 with ⟨y, _, hy⟩
    refine ⟨h3, h2, ?_⟩
    rw [← hy, pyToLower_idem]

/-! ### Equivalence of the two whitespace-collapsing formulations -/

theorem collapseGo_cons (b : Bool) (c : Char) (r : List Char) :
    collapseGo b (c :: r) =
      if pyIsSpace c = true then
        (if b = true then collapseGo true r else '-' :: collapseGo true r)
      else c :: collapseGo false r := by
  cases b <;> rfl

theorem collapseGo_true (r : List Char) :
    collapseGo true r = collapseGo false (List.dropWhile pyIsSpace r) := by
  induction r with
  | nil => rfl
  | cons a r ih =>
    rw [collapseGo_cons, List.dropWhile_cons]
    by_cases ha : pyIsSpace a = true
    · rw [if_pos ha, if_pos ha, if_pos rfl]
      exact ih
    · rw [if_neg ha, if_neg ha, collapseGo_cons, if_neg ha]

theorem specCollapse_eq_aux : ∀ (n : Nat) (l : List Char), l.length ≤ n →
    specCollapse l = collapseGo false l := by
  intro n
  induction n with
  | zero =>
    intro l hl
    have : l = [] := List.eq_nil_of_length_eq_zero (Nat.le_zero.mp hl)
    subst this
    simp [specCollapse, collapseGo]
  | succ n ih =>
    intro l hl
    cases l with
    | nil => simp [specCollapse, collapseGo]
    | cons c r =>
      simp only [List.length_cons] at hl
      simp only [specCollapse]
      rw [collapseGo_cons]
      by_cases hc : pyIsSpace c = true
      · rw [if_pos hc, if_pos hc, if_neg (by simp)]
        rw [collapseGo_true]
        have hle : (List.dropWhile pyIsSpace r).length ≤ n :=
          Nat.le_trans (length_dropWhile_le pyIsSpace r) (by omega)
        rw [ih _ hle]
      · rw [if_neg hc, if_neg hc, ih r (by omega)]

theorem specCollapse_eq (l : List Char) : specCollapse l = collapseGo false l :=
  specCollapse_eq_aux l.length l (Nat.le_refl _)

/-- The slug of the source equals the claim-worded slug amended with the
underscore. -/
theorem slug_eq_specSlugUnderscore (t : List Char) : slug t = specSlugUnderscore t := by
  unfold slug specSlugUnderscore
  rw [specCollapse_eq]
  have hfil : List.filter keepChar (t.map pyToLower) =
      List.filter (fun c => c.isAlpha || c.isDigit || c == '_' || pyIsSpace c || c == '-')
        (t.map pyToLower) := by
    apply List.filter_congr
    intro x _
    simp [keepChar, pyIsWord, Char.isAlphanum, Bool.or_assoc]
  rw [hfil]

/-! ### Heads of takeWhile / dropWhile, for the trailing-text lemmas -/

theorem head?_dropWhile (p : Char → Bool) : ∀ (l : List Char) (a : Char),
    (List.dropWhile p l).head? = some a → p a = false := by
  intro l
  induction l with
  | nil => intro a ha; simp at ha
  | cons c r ih =>
    intro a ha
    rw [List.dropWhile_cons] at ha
    split at ha
    · exact ih a ha
    · rename_i hc
      simp at ha
      subst ha
      simpa using hc

theorem head?_takeWhile (q : Char → Bool) (l : List Char) (a : Char)
    (ha : (List.takeWhile q l).head? = some a) : l.head? = some a := by
  cases l with
  | nil => simp at ha
  | cons c r =>
    rw [List.takeWhile_cons] at ha
    split at ha
    · simpa using ha
    · simp at ha

theorem dropWhile_eq_self_of_head (p : Char → Bool) (l : List Char)
    (h : ∀ a, l.head? = some a → p a = false) : List.dropWhile p l = l := by
  cases l with
  | nil => rfl
  | cons c r =>
    rw [List.dropWhile_cons, if_neg (by simp [h c rfl])]

/-- Every text captured by the scanner starts with a non-whitespace character
(or is empty): the `\s+` run of the pattern is greedy. -/
theorem findHeadingsF_text_no_leading : ∀ (fuel : Nat) (s : List Char)
    (p : List Char × List Char), p ∈ findHeadingsF fuel s →
    List.dropWhile pyIsSpace p.2 = p.2 := by
  intro fuel
  induction fuel with
  | zero =>
    intro s p hp
    simp [findHeadingsF] at hp
  | succ f ih =>
    intro s p hp
    cases s with
    | nil => simp [findHeadingsF] at hp
    | cons c r =>
      rw [findHeadingsF] at hp
      split at hp
      · split at hp
        · exact ih _ p hp
        · rcases List.mem_cons.mp hp with h | h
          · subst h
            apply dropWhile_eq_self_of_head
            intro a ha
            exact head?_dropWhile pyIsSpace _ a (head?_takeWhile _ _ a ha)
          · exact ih _ p h
      · exact ih _ p hp

/-! ### Bridging character-class lemmas -/

theorem isUpper_of_range (c : Char) (h1 : 65 ≤ c.toNat) (h2 : c.toNat ≤ 90) :
    Char.isUpper c = true := by
  unfold Char.isUpper
  have e1 : (65 : UInt32) ≤ c.val := h1
  have e2 : c.val ≤ (90 : UInt32) := h2
  simp [e1, e2]

/-- A character deleted by the slug filter is fixed by lowercasing: the only
characters moved by `pyToLower` are the upper-case ASCII letters, which the
filter keeps. -/
theorem pyToLower_eq_self_of_not_keep (c : Char) (h : keepChar c = false) :
    pyToLower c = c := by
  unfold pyToLower
  rw [if_neg]
  rintro ⟨h1, h2⟩
  have hup := isUpper_of_range c h1 h2
  have : keepChar c = true := by
    unfold keepChar pyIsWord Char.isAlphanum Char.isAlpha
    simp [hup]
  rw [this] at h
  cases h

/-! ### Lemmas for the malformed-heading skip -/

theorem hash_run_replicate (k : Nat) (c : Char) (rest : List Char) (hc : c ≠ '#') :
    List.takeWhile (fun d => d == '#') (List.replicate k '#' ++ c :: rest) =
      List.replicate k '#' ∧
    List.dropWhile (fun d => d == '#') (List.replicate k '#' ++ c :: rest) =
      c :: rest := by
  induction k with
  | zero =>
    simp [List.takeWhile_cons, List.dropWhile_cons, hc]
  | succ k ih =>
    simp only [List.replicate_succ, List.cons_append, List.takeWhile_cons,
      List.dropWhile_cons]
    simp [ih.1, ih.2]

theorem dropToNextLine_cons (c : Char) (r : List Char) :
    dropToNextLine (c :: r) = if c == '\n' then r else dropToNextLine r := rfl

theorem dropToNextLine_replicate_hash (k : Nat) (x : List Char) :
    dropToNextLine (List.replicate k '#' ++ x) = dropToNextLine x := by
  induction k with
  | zero => simp
  | succ k ih =>
    simp only [List.replicate_succ, List.cons_append, dropToNextLine_cons]
    rw [if_neg (by decide)]
    exact ih

/-! ### Claims -/

/-- C1: the claim states that the level used for filtering and indentation is
the number of leading hash characters.  The code instead computes
`heading[0].count('#')` over the whole matched line.  Evaluated at the failing
input `# See #1\n`: the leading run has length 1 (a level-1 heading, which the
specification excludes from the TOC), yet the count over the line is 2, so the
generator emits an entry (with one level of indentation) for this level-1
heading. -/
theorem c1_level_counts_all_hashes :
    specLeadingLevel "# See #1".data = 1 ∧
    List.count '#' "# See #1".data = 2 ∧
    tocEntries (findHeadings "# See #1\n".data) = ["  - [See #1](#see-1)".data] := by
  decide

/-- C2 counterexample: on the input of the claim the generated entries are not
the claimed flat `- [A](#a)` and two-space `  - [B](#b)`. -/
theorem c2_counterexample :
    tocEntries (findHeadings "# Title\n## A\n### B\n## Table of Contents\n".data) ≠
      ["- [A](#a)".data, "  - [B](#b)".data] := by
  decide

/-- C2 amended: with the indentation the code actually computes (two spaces
per `level - 1`), the entries for the claimed input are exactly
`  - [A](#a)` and `    - [B](#b)`, and neither the level-1 `Title` heading
nor the literal `Table of Contents` heading produces an entry. -/
theorem c2_amended :
    tocEntries (findHeadings "# Title\n## A\n### B\n## Table of Contents\n".data) =
      ["  - [A](#a)".data, "    - [B](#b)".data] ∧
    entryLine? ("# Title".data, "Title".data) = none ∧
    entryLine? ("## Table of Contents".data, "Table of Contents".data) = none := by
  decide

/-- C4 counterexample: the slug is not obtained by deleting every character
that is not a letter, digit, whitespace or hyphen — the underscore (kept by
the `\w` class of the source) refutes the universal claim at the text
`a_b`. -/
theorem c4_counterexample : slug "a_b".data ≠ specSlugClaim "a_b".data := by
  unfold specSlugClaim
  rw [specCollapse_eq]
  decide

/-- C4 amended: the slug equals the claimed derivation once the underscore is
added to the kept class (lowercase; delete every character that is not a
letter, digit, underscore, whitespace, or hyphen; collapse whitespace runs to
single hyphens); the claimed example `Hello, World!` to `hello-world`
holds. -/
theorem c4_amended :
    (∀ t : List Char, slug t = specSlugUnderscore t) ∧
    slug "Hello, World!".data = "hello-world".data :=
  ⟨slug_eq_specSlugUnderscore, by decide⟩

/-- C5: a document in which the pattern finds no heading receives exactly the
single line `## Table of Contents` spliced between its first line and the
rest. -/
theorem c5_no_headings (md : List Char) (h : findHeadings md = []) :
    generate md = List.intercalate ['\n']
      ((pySplitlines md).take 1 ++ ["## Table of Contents".data] ++
        (pySplitlines md).drop 1) := by
  unfold generate
  rw [h]
  have he : pySplitlines (tocString []) = ["## Table of Contents".data] := by decide
  rw [he]

/-- C5 witness: the two-line document `hello\nworld` has no headings and the
theorem instantiates to its concrete output. -/
theorem c5_no_headings_witness :
    findHeadings "hello\nworld".data = [] ∧
    generate "hello\nworld".data = "hello\n## Table of Contents\nworld".data := by
  refine ⟨by decide, ?_⟩
  have h := c5_no_headings "hello\nworld".data (by decide)
  exact h.trans (by decide)

/-- C6: the slug derivation is idempotent — slugifying an already-produced
slug yields the same slug. -/
theorem c6_slug_idempotent : ∀ t : List Char, slug (slug t) = slug t := by
  intro t
  have hmap : (slug t).map pyToLower = slug t :=
    map_pyToLower_eq_self _ (fun x hx => (slug_chars t x hx).2.2)
  have hfil : List.filter keepChar (slug t) = slug t :=
    List.filter_eq_self.mpr (fun x hx => (slug_chars t x hx).1)
  show collapseGo false (List.filter keepChar ((slug t).map pyToLower)) = slug t
  rw [hmap, hfil]
  exact collapseGo_no_space false _ (fun x hx => (slug_chars t x hx).2.1)

/-- C7 counterexample: the captured heading text is not trimmed on the right:
for the heading line `## A ` (trailing blank) the text is `A ` and its last
character is whitespace. -/
theorem c7_counterexample :
    (findHeadings "## A \n".data).map Prod.snd = ["A ".data] ∧
    "A ".data.getLast? = some ' ' ∧ pyIsSpace ' ' = true := by
  decide

/-- C7 amended: the captured text of every match carries no leading
whitespace (the greedy `\s+` run absorbs it), but may retain trailing
whitespace; the same text is used verbatim for display, comparison and slug
derivation (definitionally, in `entryLine?`). -/
theorem c7_amended (md : List Char) (p : List Char × List Char)
    (hp : p ∈ findHeadings md) : List.dropWhile pyIsSpace p.2 = p.2 :=
  findHeadingsF_text_no_leading _ md p hp

/-- C7 witness: the match of `## A \n` instantiates the amended theorem. -/
theorem c7_amended_witness :
    ("## A ".data, "A ".data) ∈ findHeadings "## A \n".data ∧
    List.dropWhile pyIsSpace "A ".data = "A ".data :=
  ⟨by decide, c7_amended "## A \n".data ("## A ".data, "A ".data) (by decide)⟩

/-- C8: the generator is a total function of the document (it is defined as a
Lean function, so termination is by construction), and a line whose leading
`#` run is not followed by whitespace is not matched: scanning resumes at the
next line with no entry emitted. -/
theorem c8_malformed_ignored (k : Nat) (c : Char) (rest : List Char)
    (hk : 0 < k) (hs : pyIsSpace c = false) (hh : c ≠ '#') :
    findHeadings (List.replicate k '#' ++ c :: rest) =
      findHeadings (dropToNextLine rest) := by
  cases k with
  | zero => exact absurd hk (by omega)
  | succ k =>
    have hcn : c ≠ '\n' := by
      intro e; subst e; exact absurd hs (by decide)
    unfold findHeadings
    have hrep : List.replicate (k + 1) '#' ++ c :: rest =
        '#' :: (List.replicate k '#' ++ c :: rest) := by
      simp [List.replicate_succ]
    rw [hrep]
    rw [findHeadingsF]
    rw [if_pos rfl]
    have hdrop : List.dropWhile (fun d => d == '#')
        ('#' :: (List.replicate k '#' ++ c :: rest)) = c :: rest := by
      have h2 := (hash_run_replicate (k + 1) c rest hh).2
      rw [hrep] at h2
      exact h2
    rw [hdrop]
    have hws : (List.takeWhile pyIsSpace (c :: rest)).isEmpty = true := by
      rw [List.takeWhile_cons, if_neg (by simp [hs])]
      rfl
    rw [if_pos hws]
    have hdtl : dropToNextLine ('#' :: (List.replicate k '#' ++ c :: rest)) =
        dropToNextLine rest := by
      have h1 := dropToNextLine_replicate_hash (k + 1) (c :: rest)
      rw [hrep] at h1
      rw [h1, dropToNextLine_cons, if_neg (by simp [hcn])]
    rw [hdtl]
    apply findHeadingsF_congr
    · have := dropToNextLine_length_le rest
      simp only [List.length_cons, List.length_append, List.length_replicate]
      omega
    · exact Nat.lt_succ_self _

/-- C8 witness: the malformed line `#foo` is skipped. -/
theorem c8_malformed_ignored_witness :
    0 < 1 ∧ pyIsSpace 'f' = false ∧ 'f' ≠ '#' ∧
    findHeadings (List.replicate 1 '#' ++ 'f' :: "oo\n## A\n".data) =
      findHeadings (dropToNextLine "oo\n## A\n".data) :=
  ⟨by decide, by decide, by decide,
    c8_malformed_ignored 1 'f' "oo\n## A\n".data (by decide) (by decide) (by decide)⟩

/-- C9 counterexample: the output can end with a newline — the input `a\n\n`
(whose final split line is empty) produces an output whose last character is a
newline. -/
theorem c9_counterexample : (generate "a\n\n".data).getLast? = some '\n' := by
  decide

/-- C10 counterexample: a qualifying heading whose text has no letter, digit,
underscore or whitespace does not always get an empty slug: hyphens are kept,
so the text `--` (which is in the claimed class) yields the non-empty slug
`--` and the entry `  - [--](#--)`. -/
theorem c10_counterexample :
    (∀ c ∈ "--".data,
      (c.isAlpha || c.isDigit || c == '_' || pyIsSpace c) = false) ∧
    slug "--".data = "--".data ∧
    tocEntries (findHeadings "# T\n## --\n".data) = ["  - [--](#--)".data] := by
  decide

/-- C3: the output is exactly the join, with newlines, of the first input
line, the TOC block lines, and the remaining input lines in order (the
splice `markdown_content[0:1] + toc + markdown_content[1:]` of the source);
in particular the first line of the output equals the first line of the
input. -/
theorem c3_frame (md : List Char) (h : md ≠ []) :
    generate md = List.intercalate ['\n']
      ((pySplitlines md).take 1 ++ pySplitlines (tocString (findHeadings md)) ++
        (pySplitlines md).drop 1) ∧
    (pySplitlines (generate md)).head? = (pySplitlines md).head? := by
  constructor
  · rfl
  · rcases List.exists_cons_of_ne_nil h with ⟨c, r, hmd⟩
    rcases hl : pySplitlines md with _ | ⟨l0, rest⟩
    · rw [hmd] at hl
      exact absurd hl (pySplitlines_ne_nil c r)
    · have hbf : breakFree l0 :=
        breakFree_of_mem_pySplitlines md l0 (by rw [hl]; exact List.mem_cons_self _ _)
      have htoc : pySplitlines (tocString (findHeadings md)) ≠ [] := by
        rcases tocLines_getLast (findHeadings md) with ⟨u, c2, _, hlast⟩
        intro he
        rw [he] at hlast
        simp at hlast
      have hgen : generate md = List.intercalate ['\n']
          (l0 :: (pySplitlines (tocString (findHeadings md)) ++ rest)) := by
        have e : (pySplitlines md).take 1 ++
            pySplitlines (tocString (findHeadings md)) ++ (pySplitlines md).drop 1 =
            l0 :: (pySplitlines (tocString (findHeadings md)) ++ rest) := by
          rw [hl]
          simp
        show List.intercalate ['\n']
            ((pySplitlines md).take 1 ++ pySplitlines (tocString (findHeadings md)) ++
              (pySplitlines md).drop 1) = _
        rw [e]
      rw [hgen]
      rw [intercalate_cons_ne_nil ['\n'] l0 _ (by
        intro he
        exact htoc (List.append_eq_nil.mp he).1)]
      have e2 : l0 ++ ['\n'] ++ List.intercalate ['\n']
            (pySplitlines (tocString (findHeadings md)) ++ rest) =
          l0 ++ '\n' :: List.intercalate ['\n']
            (pySplitlines (tocString (findHeadings md)) ++ rest) := by
        simp
      rw [e2, pySplitlines_head _ _ hbf]
      simp [hl]

/-- C3 witness: the two-line document `# T\nx` instantiates the frame
theorem. -/
theorem c3_frame_witness :
    "# T\nx".data ≠ [] ∧
    (generate "# T\nx".data = List.intercalate ['\n']
      ((pySplitlines "# T\nx".data).take 1 ++
        pySplitlines (tocString (findHeadings "# T\nx".data)) ++
        (pySplitlines "# T\nx".data).drop 1) ∧
    (pySplitlines (generate "# T\nx".data)).head? =
      (pySplitlines "# T\nx".data).head?) :=
  ⟨by decide, c3_frame "# T\nx".data (by decide)⟩

/-- C9 amended: the output ends with a newline only when the final line of
splitting the input is empty (the input ends with two consecutive line
boundaries); for every other input — in particular one ending with exactly one
trailing newline — the output does not end with a newline, so a single
trailing newline of the input is dropped. -/
theorem c9_amended (md : List Char)
    (h : (pySplitlines md).getLast? ≠ some []) :
    (generate md).getLast? ≠ some '\n' := by
  show (List.intercalate ['\n']
      ((pySplitlines md).take 1 ++ pySplitlines (tocString (findHeadings md)) ++
        (pySplitlines md).drop 1)).getLast? ≠ some '\n'
  by_cases hdrop : (pySplitlines md).drop 1 = []
  · rcases tocLines_getLast (findHeadings md) with ⟨u, c, hc, hlast⟩
    rcases List.eq_nil_or_concat (pySplitlines (tocString (findHeadings md))) with
      htoc | ⟨T, tl, htoc⟩
    · rw [htoc] at hlast
      simp at hlast
    · rw [List.concat_eq_append] at htoc
      have htl : tl = u ++ [c] := by
        rw [htoc, List.getLast?_concat] at hlast
        exact Option.some.inj hlast
      subst htl
      rw [hdrop, htoc, List.append_nil, ← List.append_assoc]
      rcases intercalate_concat_ends ((pySplitlines md).take 1 ++ T) (u ++ [c])
        with ⟨p, hp⟩
      rw [hp, getLast?_append_right p (u ++ [c]) (by simp), List.getLast?_concat]
      intro he
      have : c = '\n' := Option.some.inj he
      subst this
      exact absurd hc (by decide)
  · rcases List.eq_nil_or_concat ((pySplitlines md).drop 1) with hd2 | ⟨D, dl, hd2⟩
    · exact absurd hd2 hdrop
    · rw [List.concat_eq_append] at hd2
      have hlast : (pySplitlines md).getLast? = some dl := by
        conv_lhs => rw [← List.take_append_drop 1 (pySplitlines md)]
        rw [getLast?_append_right _ _ (by rw [hd2]; simp), hd2, List.getLast?_concat]
      have hdl : dl ≠ [] := by
        intro he
        subst he
        exact h hlast
      have hbf : breakFree dl := breakFree_of_mem_pySplitlines md dl (by
        refine List.mem_of_mem_drop (n := 1) ?_
        rw [hd2]
        exact List.mem_append_right D (List.mem_cons_self dl []))
      rw [hd2, ← List.append_assoc]
      rcases intercalate_concat_ends
        ((pySplitlines md).take 1 ++ pySplitlines (tocString (findHeadings md)) ++ D) dl
        with ⟨p, hp⟩
      rw [hp, getLast?_append_right p dl hdl]
      rcases List.eq_nil_or_concat dl with he | ⟨u, c, hu⟩
      · exact absurd he hdl
      · rw [List.concat_eq_append] at hu
        rw [hu, List.getLast?_concat]
        intro he2
        have hc : c = '\n' := Option.some.inj he2
        subst hc
        have : isLineBreak '\n' = false :=
          hbf '\n' (by rw [hu]; exact List.mem_append_right u (List.mem_cons_self _ _))
        exact absurd this (by decide)

/-- C9 witness: the input `a\nb`, whose final split line is non-empty,
instantiates the amended theorem. -/
theorem c9_amended_witness :
    (pySplitlines "a\nb".data).getLast? ≠ some [] ∧
    (generate "a\nb".data).getLast? ≠ some '\n' :=
  ⟨by decide, c9_amended "a\nb".data (by decide)⟩

/-- C10 amended: a qualifying heading (level computed by the code above 1,
text not the literal exclusion) whose text contains no letter, digit,
underscore, whitespace, or hyphen produces the entry
`indent- [text](#)` with an empty slug; and such entries are neither
suppressed nor deduplicated (the duplicated `!!!` heading yields two identical
entries). -/
theorem c10_amended :
    (∀ (full t : List Char), 1 < List.count '#' full →
      t ≠ "Table of Contents".data →
      (∀ c ∈ t, (c.isAlpha || c.isDigit || c == '_' || pyIsSpace c || c == '-') = false) →
      entryLine? (full, t) =
        some (indentation (List.count '#' full) ++ "- [".data ++ t ++ "](#)".data)) ∧
    tocEntries (findHeadings "# T\n## !!!\n## !!!\n".data) =
      ["  - [!!!](#)".data, "  - [!!!](#)".data] := by
  constructor
  · intro full t h1 h2 h3
    have hkeep : ∀ c ∈ t, keepChar c = false := by
      intro c hc
      have h4 := h3 c hc
      simpa [keepChar, pyIsWord, Char.isAlphanum, Bool.or_assoc] using h4
    have hslug : slug t = [] := by
      unfold slug
      have hfil : List.filter keepChar (t.map pyToLower) = [] := by
        rw [List.filter_eq_nil_iff]
        intro x hx
        rcases List.mem_map.mp hx with ⟨y, hy, hxy⟩
        have hky := hkeep y hy
        have hlow : pyToLower y = y := pyToLower_eq_self_of_not_keep y hky
        rw [← hxy, hlow]
        simp [hky]
      rw [hfil]
      rfl
    have hval : entryLine? (full, t) =
        some (indentation (List.count '#' full) ++ "- [".data ++ t ++ "](#".data ++
          slug t ++ ")".data) := by
      unfold entryLine?
      rw [if_pos ⟨h1, h2⟩]
    rw [hval, hslug]
    congr 1
    simp only [List.append_nil, List.append_assoc]
    have hbc : "](#".data ++ ")".data = "](#)".data := by decide
    rw [hbc]
  · decide

/-- C10 witness: the punctuation-only heading `## !!!` instantiates the
amended theorem. -/
theorem c10_amended_witness :
    1 < List.count '#' "## !!!".data ∧
    "!!!".data ≠ "Table of Contents".data ∧
    (∀ c ∈ "!!!".data,
      (c.isAlpha || c.isDigit || c == '_' || pyIsSpace c || c == '-') = false) ∧
    entryLine? ("## !!!".data, "!!!".data) =
      some (indentation (List.count '#' "## !!!".data) ++ "- [".data ++
        "!!!".data ++ "](#)".data) :=
  ⟨by decide, by decide, by decide,
    c10_amended.1 "## !!!".data "!!!".data (by decide) (by decide) (by decide)⟩

end Toc
